import Mathlib

/-
Verification of the maggma builder-orchestration runner (src/maggma/runner.py)
and of the Delta tolerance rule described by the specification (its source,
maggma/lava/diff.py, is not part of the snapshot; only its tests are).

The Python code is embedded shallowly:
  * a Python dict is an association list `RMap` with insertion-order-preserving
    update (`msetKey` replaces in place, otherwise appends), exactly the
    observable behaviour of `dict.update`;
  * the recursive `_build_dependencies` traversal is embedded with an explicit
    fuel parameter: `none` models non-termination, `some trace` a completed
    traversal, where `trace` is `self.has_run`, i.e. the builder indices in
    the order `_run_builder` was called on them;
  * a single builder execution is embedded as a function from the runner's
    per-instance state (`processed_items`, `status`) to the new state plus the
    list of externally visible calls (`Event`s) made by the coordinating
    process, in the order the code performs them.
-/

/-- A Python dict with string keys and numeric values, as an association list
in insertion order. -/
abbrev RMap := List (String × Nat)

/-- Lookup: first binding of the key (association lists built by `msetKey`
never hold a key twice, so this is the dict lookup). -/
def mlookup (m : RMap) (k : String) : Option Nat :=
  (m.find? (fun p => p.1 == k)).map (fun p => p.2)

/-- `d[k] = v` on a dict: replace the binding in place if the key is present,
else append it (Python dicts preserve insertion order). -/
def msetKey : RMap → String → Nat → RMap
  | [], k, v => [(k, v)]
  | p :: rest, k, v => if p.1 == k then (k, v) :: rest else p :: msetKey rest k v

/-- `m.update(d)` on dicts: write every binding of `d` into `m`, in order. -/
def mupdate (m d : RMap) : RMap :=
  d.foldl (fun acc p => msetKey acc p.1 p.2) m

/-- Fold `mupdate` over a list of deltas: the accumulated results mapping
after merging each processed item in order. -/
def mergeAll (m : RMap) (ds : List RMap) : RMap :=
  ds.foldl mupdate m

/-- One step of scanning a list of deltas for the binding a merge sequence
leaves behind: a delta that binds `k` (latest binding inside it first)
overrides the accumulator. -/
def mstep (k : String) (acc : Option Nat) (d : RMap) : Option Nat :=
  match mlookup d.reverse k with
  | some v => some v
  | none => acc

/-- The binding that a sequence of merges leaves for `k`: the value from the
latest delta that binds `k` (within one delta, its latest binding). -/
def mlookupMaps (ds : List RMap) (k : String) : Option Nat :=
  ds.foldl (mstep k) none

theorem mlookup_nil (k : String) : mlookup [] k = none := rfl

theorem mlookup_cons (p : String × Nat) (rest : RMap) (k : String) :
    mlookup (p :: rest) k = if p.1 = k then some p.2 else mlookup rest k := by
  by_cases h : p.1 = k
  · simp [mlookup, List.find?, h]
  · simp [mlookup, List.find?, h, beq_eq_false_iff_ne.mpr h]

theorem mlookup_append (m1 m2 : RMap) (k : String) :
    mlookup (m1 ++ m2) k =
      match mlookup m1 k with
      | some v => some v
      | none => mlookup m2 k := by
  induction m1 with
  | nil => simp [mlookup_nil]
  | cons p rest ih =>
    by_cases h : p.1 = k
    · simp [mlookup_cons, h]
    · simp [mlookup_cons, h, ih]

theorem mlookup_msetKey_self (m : RMap) (k : String) (v : Nat) :
    mlookup (msetKey m k v) k = some v := by
  induction m with
  | nil => simp [msetKey, mlookup_cons, mlookup_nil]
  | cons p rest ih =>
    by_cases h : p.1 = k
    · simp [msetKey, h, mlookup_cons]
    · simp only [msetKey, beq_eq_false_iff_ne.mpr h, if_false, Bool.false_eq_true]
      simp [mlookup_cons, h, ih]

theorem mlookup_msetKey_other (m : RMap) (k k2 : String) (v : Nat) (hne : k2 ≠ k) :
    mlookup (msetKey m k v) k2 = mlookup m k2 := by
  induction m with
  | nil => simp [msetKey, mlookup_cons, mlookup_nil, Ne.symm hne]
  | cons p rest ih =>
    by_cases h : p.1 = k
    · subst h
      simp [msetKey, mlookup_cons, Ne.symm hne]
    · simp only [msetKey, beq_eq_false_iff_ne.mpr h, if_false, Bool.false_eq_true]
      by_cases h2 : p.1 = k2
      · simp [mlookup_cons, h2]
      · simp [mlookup_cons, h2, ih]

theorem mlookup_mupdate (m d : RMap) (k : String) :
    mlookup (mupdate m d) k =
      match mlookup d.reverse k with
      | some v => some v
      | none => mlookup m k := by
  induction d generalizing m with
  | nil => simp [mupdate, mlookup_nil]
  | cons p rest ih =>
    have hstep : mupdate m (p :: rest) = mupdate (msetKey m p.1 p.2) rest := by
      simp [mupdate]
    rw [hstep, ih]
    have hrev : (p :: rest).reverse = rest.reverse ++ [p] := by simp
    rw [hrev, mlookup_append]
    cases hf : mlookup rest.reverse k with
    | some v => simp
    | none =>
      by_cases hk : p.1 = k
      · subst hk
        simp [mlookup_cons, mlookup_nil, mlookup_msetKey_self]
      · simp [mlookup_cons, mlookup_nil, hk,
          mlookup_msetKey_other m p.1 k p.2 (Ne.symm hk)]

theorem mlookup_mupdate_isSome (m d : RMap) (k : String)
    (h : (mlookup m k).isSome) : (mlookup (mupdate m d) k).isSome := by
  rw [mlookup_mupdate]
  cases hf : mlookup d.reverse k <;> simp [h]

theorem mlookupMaps_acc (k : String) :
    ∀ (ds : List RMap) (a : Option Nat),
      ds.foldl (mstep k) a =
      match mlookupMaps ds k with
      | some v => some v
      | none => a := by
  intro ds
  induction ds with
  | nil => intro a; simp [mlookupMaps]
  | cons d rest ih =>
    intro a
    have h1 : (d :: rest).foldl (mstep k) a = rest.foldl (mstep k) (mstep k a d) := rfl
    have h2 : mlookupMaps (d :: rest) k = rest.foldl (mstep k) (mstep k none d) := rfl
    rw [h1, h2, ih (mstep k a d), ih (mstep k none d)]
    cases hr : mlookupMaps rest k <;> cases hd : mlookup d.reverse k <;>
      simp [mstep, hd]

theorem mlookup_mergeAll (m : RMap) (ds : List RMap) (k : String) :
    mlookup (mergeAll m ds) k =
      match mlookupMaps ds k with
      | some v => some v
      | none => mlookup m k := by
  induction ds generalizing m with
  | nil => simp [mergeAll, mlookupMaps]
  | cons d rest ih =>
    have hstep : mergeAll m (d :: rest) = mergeAll (mupdate m d) rest := rfl
    have h2 : mlookupMaps (d :: rest) k = rest.foldl (mstep k) (mstep k none d) := rfl
    rw [hstep, ih, h2, mlookupMaps_acc k rest (mstep k none d), mlookup_mupdate]
    cases hr : mlookupMaps rest k <;> cases hd : mlookup d.reverse k <;>
      simp [mstep, hd]

theorem mlookupMaps_append_single (ds : List RMap) (d : RMap) (k : String) :
    mlookupMaps (ds ++ [d]) k =
      match mlookup d.reverse k with
      | some v => some v
      | none => mlookupMaps ds k := by
  have h1 : mlookupMaps (ds ++ [d]) k = mstep k (ds.foldl (mstep k) none) d := by
    simp [mlookupMaps, List.foldl_append]
  rw [h1, mlookupMaps_acc k ds none]
  cases hd : mlookup d.reverse k <;> cases hr : mlookupMaps ds k <;>
    simp [mstep, hd]

/-- A builder as the orchestrator sees it: declared source and target names
(matched by string equality to order runs), the items yielded by
`get_items()`, and the per-item transform `process_item` (its result is a
mapping of processed items). -/
structure Builder where
  sources : List String
  targets : List String
  items : List Nat
  processItem : Nat → RMap

/-- `Runner._get_builder_dependency_graph`: `links_dict[i]` lists, for every
other index `j`, one entry per name of `builders[i].sources` that occurs in
`builders[j].targets` (the Python loops append `j` once per matching source).
Indices outside the builder list have no entries (`defaultdict`). -/
def dependencyGraph (bs : List Builder) (i : Nat) : List Nat :=
  match bs[i]? with
  | none => []
  | some bi =>
    (List.range bs.length).flatMap (fun j =>
      match bs[j]? with
      | none => []
      | some bj =>
        if i ≠ j then
          (bi.sources.filter (fun s => decide (s ∈ bj.targets))).map (fun _ => j)
        else [])

theorem mem_dependencyGraph (bs : List Builder) (i j : Nat) :
    j ∈ dependencyGraph bs i ↔
      i ≠ j ∧ ∃ bi bj, bs[i]? = some bi ∧ bs[j]? = some bj ∧
        ∃ s, s ∈ bi.sources ∧ s ∈ bj.targets := by
  cases hbi : bs[i]? with
  | none =>
    simp only [dependencyGraph, hbi]
    simp
  | some bi =>
    simp only [dependencyGraph, hbi]
    constructor
    · intro h
      rw [List.mem_flatMap] at h
      obtain ⟨a, ha, hmem⟩ := h
      rw [List.mem_range] at ha
      split at hmem
      · exact absurd hmem (List.not_mem_nil j)
      · next ba hba =>
        split at hmem
        · next hia =>
          rw [List.mem_map] at hmem
          obtain ⟨s, hs, hj⟩ := hmem
          rw [List.mem_filter] at hs
          subst hj
          exact ⟨hia, bi, ba, rfl, hba, s, hs.1, by simpa using hs.2⟩
        · exact absurd hmem (List.not_mem_nil j)
    · rintro ⟨hij, bi2, bj, hbi2, hbj, s, hs, ht⟩
      injection hbi2 with hbi2
      subst hbi2
      rw [List.mem_flatMap]
      refine ⟨j, ?_, ?_⟩
      · rw [List.mem_range]
        rcases List.getElem?_eq_some.mp hbj with ⟨hlt, -⟩
        exact hlt
      · rw [hbj]
        show j ∈ if i ≠ j then
            (bi.sources.filter (fun s => decide (s ∈ bj.targets))).map (fun _ => j)
          else []
        rw [if_pos hij, List.mem_map]
        exact ⟨s, List.mem_filter.mpr ⟨hs, by simpa using ht⟩, rfl⟩

theorem dependencyGraph_lt (bs : List Builder) (i j : Nat)
    (h : j ∈ dependencyGraph bs i) : j < bs.length := by
  rcases (mem_dependencyGraph bs i j).mp h with ⟨-, -, bj, -, hbj, -⟩
  rcases List.getElem?_eq_some.mp hbj with ⟨hlt, -⟩
  exact hlt

/-- A trace of builder runs respects the dependency graph: every index that
occurs in it is preceded by everything it depends on. -/
def Closed (deps : Nat → List Nat) (l : List Nat) : Prop :=
  ∀ l1 a l2, l = l1 ++ a :: l2 → ∀ j ∈ deps a, j ∈ l1

theorem closed_nil (deps : Nat → List Nat) : Closed deps [] := by
  intro l1 a l2 h
  exact absurd h (by cases l1 <;> simp)

theorem closed_append (deps : Nat → List Nat) (l : List Nat) (i : Nat)
    (hc : Closed deps l) (hd : ∀ j ∈ deps i, j ∈ l) : Closed deps (l ++ [i]) := by
  intro l1 a l2 heq j hj
  rcases List.append_eq_append_iff.mp heq with ⟨w, hw1, hw2⟩ | ⟨w, hw1, hw2⟩
  · cases w with
    | nil =>
      simp only [List.nil_append] at hw2
      injection hw2 with ha hl2
      subst ha
      simp only [List.append_nil] at hw1
      subst hw1
      exact hd j hj
    | cons x w2 =>
      have := congrArg List.length hw2
      simp at this
  · cases w with
    | nil =>
      simp only [List.nil_append] at hw2
      injection hw2 with ha hl2
      subst ha
      simp only [List.append_nil] at hw1
      subst hw1
      exact hd j hj
    | cons x w2 =>
      injection hw2 with hx hl2
      subst hx
      subst hl2
      exact hc l1 a w2 hw1 j hj

/-- The loop inside `_build_dependencies` over `self.dependency_graph[i]`
(and the loop of `run()` over all builders): run `step` on each index in
turn, threading `has_run`; `none` aborts (models non-termination below). -/
def runList (step : List Nat → Nat → Option (List Nat)) :
    List Nat → List Nat → Option (List Nat)
  | hasRun, [] => some hasRun
  | hasRun, j :: js =>
    match step hasRun j with
    | none => none
    | some hr => runList step hr js

/-- `Runner._build_dependencies`, with fuel: if the index has already run,
return; otherwise first recurse into each of its dependencies, then run the
builder (append the index to `has_run`). Exhausted fuel (`none`) models the
unbounded recursion a cyclic graph causes. -/
def buildDeps (deps : Nat → List Nat) : Nat → List Nat → Nat → Option (List Nat)
  | 0, _, _ => none
  | fuel + 1, hasRun, i =>
    if i ∈ hasRun then some hasRun
    else
      match runList (fun hr j => buildDeps deps fuel hr j) hasRun (deps i) with
      | none => none
      | some hr => some (hr ++ [i])

/-- `Runner.run`: iterate over the builders in supplied order, calling
`_build_dependencies` on each index, starting from an empty `has_run`. -/
def runnerRun (deps : Nat → List Nat) (n fuel : Nat) : Option (List Nat) :=
  runList (fun hr i => buildDeps deps fuel hr i) [] (List.range n)

theorem runList_mono (step : List Nat → Nat → Option (List Nat))
    (Hp : ∀ hr j res, step hr j = some res → ∃ t, res = hr ++ t) :
    ∀ (l : List Nat) (hr res : List Nat),
      runList step hr l = some res → ∃ t, res = hr ++ t := by
  intro l
  induction l with
  | nil =>
    intro hr res h
    simp only [runList] at h
    injection h with h
    exact ⟨[], by simp [h]⟩
  | cons j js ih =>
    intro hr res h
    simp only [runList] at h
    cases hst : step hr j with
    | none => rw [hst] at h; exact absurd h (by simp)
    | some hr1 =>
      rw [hst] at h
      obtain ⟨t1, ht1⟩ := Hp hr j hr1 hst
      obtain ⟨t2, ht2⟩ := ih hr1 res h
      exact ⟨t1 ++ t2, by rw [ht2, ht1, List.append_assoc]⟩

theorem runList_mem (step : List Nat → Nat → Option (List Nat))
    (Hp : ∀ hr j res, step hr j = some res → ∃ t, res = hr ++ t)
    (Hm : ∀ hr j res, step hr j = some res → j ∈ res) :
    ∀ (l : List Nat) (hr res : List Nat),
      runList step hr l = some res → ∀ j ∈ l, j ∈ res := by
  intro l
  induction l with
  | nil => intro hr res h j hj; exact absurd hj (List.not_mem_nil j)
  | cons j0 js ih =>
    intro hr res h j hj
    simp only [runList] at h
    cases hst : step hr j0 with
    | none => rw [hst] at h; exact absurd h (by simp)
    | some hr1 =>
      rw [hst] at h
      rcases List.mem_cons.mp hj with hj0 | hjs
      · subst hj0
        obtain ⟨t2, ht2⟩ := runList_mono step Hp js hr1 res h
        rw [ht2]
        exact List.mem_append_left t2 (Hm _ _ _ hst)
      · exact ih hr1 res h j hjs

theorem runList_preserve (step : List Nat → Nat → Option (List Nat))
    (C : List Nat → Prop)
    (H : ∀ hr j res, step hr j = some res → C hr → C res) :
    ∀ (l : List Nat) (hr res : List Nat),
      runList step hr l = some res → C hr → C res := by
  intro l
  induction l with
  | nil =>
    intro hr res h hc
    simp only [runList] at h
    injection h with h
    rw [← h]
    exact hc
  | cons j js ih =>
    intro hr res h hc
    simp only [runList] at h
    cases hst : step hr j with
    | none => rw [hst] at h; exact absurd h (by simp)
    | some hr1 =>
      rw [hst] at h
      exact ih hr1 res h (H hr j hr1 hst hc)

theorem runList_or (step : List Nat → Nat → Option (List Nat))
    (Q : Nat → Prop)
    (H : ∀ hr j res, step hr j = some res → Q j → ∀ x ∈ res, x ∈ hr ∨ Q x) :
    ∀ (l : List Nat) (hr res : List Nat),
      runList step hr l = some res → (∀ j ∈ l, Q j) → ∀ x ∈ res, x ∈ hr ∨ Q x := by
  intro l
  induction l with
  | nil =>
    intro hr res h _ x hx
    simp only [runList] at h
    injection h with h
    rw [← h] at hx
    exact Or.inl hx
  | cons j js ih =>
    intro hr res h hQ x hx
    simp only [runList] at h
    cases hst : step hr j with
    | none => rw [hst] at h; exact absurd h (by simp)
    | some hr1 =>
      rw [hst] at h
      rcases ih hr1 res h (fun a ha => hQ a (List.mem_cons_of_mem j ha)) x hx with h1 | h1
      · exact H hr j hr1 hst (hQ j (List.mem_cons_self j js)) x h1
      · exact Or.inr h1

theorem runList_isSome (step : List Nat → Nat → Option (List Nat)) :
    ∀ (l : List Nat) (hr : List Nat),
      (∀ j ∈ l, ∀ hr2, (step hr2 j).isSome) → (runList step hr l).isSome := by
  intro l
  induction l with
  | nil => intro hr _; simp [runList]
  | cons j js ih =>
    intro hr H
    simp only [runList]
    cases hst : step hr j with
    | none =>
      have := H j (List.mem_cons_self j js) hr
      rw [hst] at this
      exact absurd this (by simp)
    | some hr1 =>
      exact ih hr1 (fun a ha hr2 => H a (List.mem_cons_of_mem j ha) hr2)

theorem buildDeps_mono (deps : Nat → List Nat) :
    ∀ (fuel : Nat) (hr : List Nat) (i : Nat) (res : List Nat),
      buildDeps deps fuel hr i = some res → ∃ t, res = hr ++ t := by
  intro fuel
  induction fuel with
  | zero => intro hr i res h; exact absurd h (by simp [buildDeps])
  | succ f ih =>
    intro hr i res h
    simp only [buildDeps] at h
    by_cases hi : i ∈ hr
    · rw [if_pos hi] at h
      injection h with h
      exact ⟨[], by simp [h]⟩
    · rw [if_neg hi] at h
      cases hrl : runList (fun hr2 j => buildDeps deps f hr2 j) hr (deps i) with
      | none => rw [hrl] at h; exact absurd h (by simp)
      | some hr1 =>
        rw [hrl] at h
        injection h with h
        obtain ⟨t, ht⟩ := runList_mono _ (fun a b c hs => ih a b c hs) _ _ _ hrl
        exact ⟨t ++ [i], by rw [← h, ht, List.append_assoc]⟩

theorem buildDeps_mem_self (deps : Nat → List Nat) :
    ∀ (fuel : Nat) (hr : List Nat) (i : Nat) (res : List Nat),
      buildDeps deps fuel hr i = some res → i ∈ res := by
  intro fuel
  cases fuel with
  | zero => intro hr i res h; exact absurd h (by simp [buildDeps])
  | succ f =>
    intro hr i res h
    simp only [buildDeps] at h
    by_cases hi : i ∈ hr
    · rw [if_pos hi] at h
      injection h with h
      rw [← h]
      exact hi
    · rw [if_neg hi] at h
      cases hrl : runList (fun hr2 j => buildDeps deps f hr2 j) hr (deps i) with
      | none => rw [hrl] at h; exact absurd h (by simp)
      | some hr1 =>
        rw [hrl] at h
        injection h with h
        rw [← h]
        exact List.mem_append_right hr1 (List.mem_singleton.mpr rfl)

theorem buildDeps_or (deps : Nat → List Nat) (Q : Nat → Prop)
    (hQ : ∀ a b, Q a → b ∈ deps a → Q b) :
    ∀ (fuel : Nat) (hr : List Nat) (i : Nat) (res : List Nat),
      buildDeps deps fuel hr i = some res → Q i → ∀ x ∈ res, x ∈ hr ∨ Q x := by
  intro fuel
  induction fuel with
  | zero => intro hr i res h; exact absurd h (by simp [buildDeps])
  | succ f ih =>
    intro hr i res h hQi x hx
    simp only [buildDeps] at h
    by_cases hi : i ∈ hr
    · rw [if_pos hi] at h
      injection h with h
      rw [← h] at hx
      exact Or.inl hx
    · rw [if_neg hi] at h
      cases hrl : runList (fun hr2 j => buildDeps deps f hr2 j) hr (deps i) with
      | none => rw [hrl] at h; exact absurd h (by simp)
      | some hr1 =>
        rw [hrl] at h
        injection h with h
        rw [← h] at hx
        rcases List.mem_append.mp hx with hx1 | hx1
        · exact runList_or _ Q (fun a b c hs hb => ih a b c hs hb)
            (deps i) hr hr1 hrl (fun j hj => hQ i j hQi hj) x hx1
        · rw [List.mem_singleton.mp hx1]
          exact Or.inr hQi

theorem buildDeps_nodup (deps : Nat → List Nat) (r : Nat → Nat)
    (hrank : ∀ a b, b ∈ deps a → r b < r a) :
    ∀ (fuel : Nat) (hr : List Nat) (i : Nat) (res : List Nat),
      buildDeps deps fuel hr i = some res → hr.Nodup → res.Nodup := by
  intro fuel
  induction fuel with
  | zero => intro hr i res h; exact absurd h (by simp [buildDeps])
  | succ f ih =>
    intro hr i res h hnd
    simp only [buildDeps] at h
    by_cases hi : i ∈ hr
    · rw [if_pos hi] at h
      injection h with h
      rw [← h]
      exact hnd
    · rw [if_neg hi] at h
      cases hrl : runList (fun hr2 j => buildDeps deps f hr2 j) hr (deps i) with
      | none => rw [hrl] at h; exact absurd h (by simp)
      | some hr1 =>
        rw [hrl] at h
        injection h with h
        have hnd1 : hr1.Nodup :=
          runList_preserve _ List.Nodup (fun a b c hs hc => ih a b c hs hc)
            (deps i) hr hr1 hrl hnd
        have hnotin : i ∉ hr1 := by
          intro hin
          have hor := runList_or _ (fun x => r x < r i)
            (fun a b c hs ha => buildDeps_or deps (fun x => r x < r i)
              (fun p q hp hq => lt_trans (hrank p q hq) hp) f a b c hs ha)
            (deps i) hr hr1 hrl (fun j hj => hrank i j hj) i hin
          rcases hor with hc | hc
          · exact hi hc
          · exact lt_irrefl (r i) hc
        rw [← h, List.nodup_append]
        exact ⟨hnd1, List.nodup_singleton i, fun x hx1 hx2 => by
          rw [List.mem_singleton.mp hx2] at hx1
          exact hnotin hx1⟩

theorem buildDeps_closed (deps : Nat → List Nat) :
    ∀ (fuel : Nat) (hr : List Nat) (i : Nat) (res : List Nat),
      buildDeps deps fuel hr i = some res → Closed deps hr → Closed deps res := by
  intro fuel
  induction fuel with
  | zero => intro hr i res h; exact absurd h (by simp [buildDeps])
  | succ f ih =>
    intro hr i res h hc
    simp only [buildDeps] at h
    by_cases hi : i ∈ hr
    · rw [if_pos hi] at h
      injection h with h
      rw [← h]
      exact hc
    · rw [if_neg hi] at h
      cases hrl : runList (fun hr2 j => buildDeps deps f hr2 j) hr (deps i) with
      | none => rw [hrl] at h; exact absurd h (by simp)
      | some hr1 =>
        rw [hrl] at h
        injection h with h
        have hc1 : Closed deps hr1 :=
          runList_preserve _ (Closed deps) (fun a b c hs hcc => ih a b c hs hcc)
            (deps i) hr hr1 hrl hc
        have hdsub : ∀ j ∈ deps i, j ∈ hr1 :=
          runList_mem _ (fun a b c hs => buildDeps_mono deps f a b c hs)
            (fun a b c hs => buildDeps_mem_self deps f a b c hs)
            (deps i) hr hr1 hrl
        rw [← h]
        exact closed_append deps hr1 i hc1 hdsub

theorem buildDeps_isSome (deps : Nat → List Nat) (r : Nat → Nat)
    (hrank : ∀ a b, b ∈ deps a → r b < r a) :
    ∀ (fuel i : Nat) (hr : List Nat), r i < fuel → (buildDeps deps fuel hr i).isSome := by
  intro fuel
  induction fuel using Nat.strong_induction_on with
  | _ f IH =>
    intro i hr hlt
    cases f with
    | zero => exact absurd hlt (Nat.not_lt_zero (r i))
    | succ f2 =>
      simp only [buildDeps]
      by_cases hi : i ∈ hr
      · rw [if_pos hi]; simp
      · rw [if_neg hi]
        have hsome : (runList (fun hr2 j => buildDeps deps f2 hr2 j) hr (deps i)).isSome := by
          apply runList_isSome
          intro j hj hr2
          exact IH f2 (Nat.lt_succ_self f2) j hr2
            (lt_of_lt_of_le (hrank i j hj) (Nat.lt_succ_iff.mp hlt))
        cases hrl : runList (fun hr2 j => buildDeps deps f2 hr2 j) hr (deps i) with
        | none => rw [hrl] at hsome; exact absurd hsome (by simp)
        | some hr1 => simp


theorem le_foldr_max (r : Nat → Nat) :
    ∀ (l : List Nat) (x : Nat), x ∈ l → r x ≤ l.foldr (fun i m => max (r i) m) 0 := by
  intro l
  induction l with
  | nil => intro x hx; exact absurd hx (List.not_mem_nil x)
  | cons a t ih =>
    intro x hx
    rcases List.mem_cons.mp hx with h | h
    · subst h
      exact le_max_left _ _
    · exact le_trans (ih x h) (le_max_right _ _)

/-- Claim C6 (termination on acyclic graphs). If the dependency graph of the
supplied builders is acyclic, witnessed by a rank function that strictly
decreases along every dependency edge, then the recursive depth-first
traversal performed by `run()` terminates: some finite fuel lets
`runnerRun` complete and return a trace. (With exhausted fuel the embedding
returns `none`, which is how the unbounded recursion of a cyclic
configuration appears here; no claim is made for cyclic graphs.) -/
theorem run_terminates_on_acyclic (bs : List Builder)
    (hacyclic : ∃ r : Nat → Nat, ∀ i j, j ∈ dependencyGraph bs i → r j < r i) :
    ∃ fuel tr, runnerRun (dependencyGraph bs) bs.length fuel = some tr := by
  obtain ⟨r, hrank⟩ := hacyclic
  refine ⟨(List.range bs.length).foldr (fun i m => max (r i) m) 0 + 1, ?_⟩
  have hsome : (runnerRun (dependencyGraph bs) bs.length
      ((List.range bs.length).foldr (fun i m => max (r i) m) 0 + 1)).isSome := by
    unfold runnerRun
    apply runList_isSome
    intro j hj hr2
    exact buildDeps_isSome (dependencyGraph bs) r hrank _ j hr2
      (Nat.lt_succ_of_le (le_foldr_max r _ j hj))
  rcases Option.isSome_iff_exists.mp hsome with ⟨tr, htr⟩
  exact ⟨tr, htr⟩

/-- Claim C1 (dependency-ordered execution). For builders whose dependency
graph is acyclic (rank function decreasing along edges), `run()` completes
and its trace — the sequence of `_run_builder` calls, each of which runs one
builder to completion before the next starts — contains every builder index
exactly once, contains nothing else, and places every dependency of a
builder strictly before that builder, for every supplied order `bs`. -/
theorem run_dependency_order (bs : List Builder) (r : Nat → Nat)
    (hrank : ∀ i j, j ∈ dependencyGraph bs i → r j < r i) :
    ∃ fuel tr, runnerRun (dependencyGraph bs) bs.length fuel = some tr ∧
      (∀ i, i < bs.length → tr.count i = 1) ∧
      (∀ x ∈ tr, x < bs.length) ∧
      (∀ l1 a l2, tr = l1 ++ a :: l2 → ∀ j ∈ dependencyGraph bs a, j ∈ l1) := by
  obtain ⟨fuel, tr, htr⟩ := run_terminates_on_acyclic bs ⟨r, hrank⟩
  refine ⟨fuel, tr, htr, ?_, ?_, ?_⟩
  · unfold runnerRun at htr
    have hnd : tr.Nodup :=
      runList_preserve _ List.Nodup
        (fun a b c hs hc => buildDeps_nodup (dependencyGraph bs) r hrank fuel a b c hs hc)
        (List.range bs.length) [] tr htr List.nodup_nil
    intro i hi
    have hmem : i ∈ tr :=
      runList_mem _
        (fun a b c hs => buildDeps_mono (dependencyGraph bs) fuel a b c hs)
        (fun a b c hs => buildDeps_mem_self (dependencyGraph bs) fuel a b c hs)
        (List.range bs.length) [] tr htr i (List.mem_range.mpr hi)
    exact List.count_eq_one_of_mem hnd hmem
  · unfold runnerRun at htr
    intro x hx
    have hor := runList_or _ (fun y => y < bs.length)
      (fun a b c hs ha => buildDeps_or (dependencyGraph bs) (fun y => y < bs.length)
        (fun p q _ hq => dependencyGraph_lt bs p q hq) fuel a b c hs ha)
      (List.range bs.length) [] tr htr
      (fun j hj => List.mem_range.mp hj) x hx
    rcases hor with hc | hc
    · exact absurd hc (List.not_mem_nil x)
    · exact hc
  · unfold runnerRun at htr
    have hcl : Closed (dependencyGraph bs) tr :=
      runList_preserve _ (Closed (dependencyGraph bs))
        (fun a b c hs hc => buildDeps_closed (dependencyGraph bs) fuel a b c hs hc)
        (List.range bs.length) [] tr htr (closed_nil (dependencyGraph bs))
    exact hcl

/-- Claim C5 (dependency graph contents). Membership in the graph computed by
`_get_builder_dependency_graph` holds exactly when the indices differ, both
denote builders of the list, and some source name of the first occurs — by
exact string equality — among the target names of the second; in particular
no builder ever depends on itself. The graph is a pure function of the
builders list, recomputed by each construction. -/
theorem dependency_graph_spec (bs : List Builder) :
    (∀ i j, j ∈ dependencyGraph bs i ↔
      i ≠ j ∧ ∃ bi bj, bs[i]? = some bi ∧ bs[j]? = some bj ∧
        ∃ s, s ∈ bi.sources ∧ s ∈ bj.targets) ∧
    (∀ i, i ∉ dependencyGraph bs i) := by
  refine ⟨fun i j => mem_dependencyGraph bs i j, fun i hi => ?_⟩
  rcases (mem_dependencyGraph bs i i).mp hi with ⟨hne, -⟩
  exact hne rfl

/-- Two concrete builders for witnesses: builder 0 reads the name that
builder 1 writes, so 0 depends on 1 and the graph is acyclic. -/
def demoBuilderA : Builder := ⟨["mats"], ["final"], [1, 2], fun it => [("a", it)]⟩

/-- The upstream demo builder; its target name is builder 0's source name. -/
def demoBuilderB : Builder := ⟨[], ["mats"], [3], fun it => [("b", it)]⟩

/-- The demo builder list, supplied in anti-dependency order on purpose. -/
def demoBuilders : List Builder := [demoBuilderA, demoBuilderB]

/-- A rank function witnessing acyclicity of the demo dependency graph. -/
def demoRank : Nat → Nat := fun i => if i = 0 then 1 else 0

theorem demoRank_ok :
    ∀ i j, j ∈ dependencyGraph demoBuilders i → demoRank j < demoRank i := by
  intro i j h
  match i with
  | 0 =>
    have e : dependencyGraph demoBuilders 0 = [1] := by decide
    rw [e] at h
    have hj : j = 1 := by simpa using h
    subst hj
    decide
  | 1 =>
    have e : dependencyGraph demoBuilders 1 = [] := by decide
    rw [e] at h
    exact absurd h (List.not_mem_nil j)
  | (m + 2) =>
    rcases (mem_dependencyGraph demoBuilders (m + 2) j).mp h with ⟨-, bi, -, hbi, -⟩
    rw [List.getElem?_eq_none (by simp [demoBuilders])] at hbi
    exact absurd hbi (by simp)

/-- Witness for C1: the hypothesis holds for the demo builders and the
theorem applies. -/
theorem run_dependency_order_witness :
    (∀ i j, j ∈ dependencyGraph demoBuilders i → demoRank j < demoRank i) ∧
    (∃ fuel tr,
      runnerRun (dependencyGraph demoBuilders) demoBuilders.length fuel = some tr ∧
      (∀ i, i < demoBuilders.length → tr.count i = 1) ∧
      (∀ x ∈ tr, x < demoBuilders.length) ∧
      (∀ l1 a l2, tr = l1 ++ a :: l2 → ∀ j ∈ dependencyGraph demoBuilders a, j ∈ l1)) :=
  ⟨demoRank_ok, run_dependency_order demoBuilders demoRank demoRank_ok⟩

/-- Witness for C6: acyclicity holds for the demo builders and the theorem
applies. -/
theorem run_terminates_on_acyclic_witness :
    (∃ r : Nat → Nat, ∀ i j, j ∈ dependencyGraph demoBuilders i → r j < r i) ∧
    (∃ fuel tr,
      runnerRun (dependencyGraph demoBuilders) demoBuilders.length fuel = some tr) :=
  ⟨⟨demoRank, demoRank_ok⟩, run_terminates_on_acyclic demoBuilders ⟨demoRank, demoRank_ok⟩⟩

/-- Witness for C5 at concrete indices of the demo builders. -/
theorem dependency_graph_spec_witness :
    (1 ∈ dependencyGraph demoBuilders 0 ↔
      (0 : Nat) ≠ 1 ∧ ∃ bi bj, demoBuilders[0]? = some bi ∧ demoBuilders[1]? = some bj ∧
        ∃ s, s ∈ bi.sources ∧ s ∈ bj.targets) ∧
    0 ∉ dependencyGraph demoBuilders 0 :=
  ⟨(dependency_graph_spec demoBuilders).1 0 1, (dependency_graph_spec demoBuilders).2 0⟩

/-- The kind of work queue `Runner.__init__` allocates: a
`multiprocessing.Queue` shared across processes, or a plain in-process
`queue.Queue`. -/
inductive QueueKind where
  | sharedQ
  | plainQ
  deriving DecidableEq

/-- The kind of results mapping `Runner.__init__` allocates: a
manager-backed process-shared dict, or a plain dict. -/
inductive MapKind where
  | sharedM
  | plainM
  deriving DecidableEq

/-- The failure `Runner.__init__` raises when MPI is requested but the
`mpi4py` binding cannot be imported (the spec's ConfigurationError kind;
the code raises `ImportError`). -/
inductive InitError where
  | mpiBindingMissing
  deriving DecidableEq

/-- The observable outcome of a successful `Runner.__init__`: the stored
flags and which queue / results-mapping primitives were allocated (`none`
when the MPI branch allocates neither). -/
structure RunnerInit where
  useMpi : Bool
  numWorkers : Int
  queue : Option QueueKind
  results : Option MapKind
  deriving DecidableEq

/-- `Runner.__init__(builders, use_mpi, num_workers)`: `num_workers` is
forced to 1 under MPI; without MPI, `num_workers > 1` allocates the
process-shared queue and mapping and any other value the plain ones; under
MPI nothing is allocated but the binding must be importable or construction
fails. `mpiImportable` models whether `from mpi4py import MPI` succeeds. -/
def runnerInit (useMpi : Bool) (numWorkers : Int) (mpiImportable : Bool) :
    Except InitError RunnerInit :=
  let nw : Int := if useMpi then 1 else numWorkers
  if !useMpi then
    if nw > 1 then
      Except.ok ⟨useMpi, nw, some QueueKind.sharedQ, some MapKind.sharedM⟩
    else
      Except.ok ⟨useMpi, nw, some QueueKind.plainQ, some MapKind.plainM⟩
  else if mpiImportable then
    Except.ok ⟨useMpi, nw, none, none⟩
  else
    Except.error InitError.mpiBindingMissing

/-- Claim C4 (construction). Under MPI the stored worker count is 1 whatever
was passed, and construction fails exactly when the binding is missing;
without MPI, more than one worker allocates the process-shared queue and
results mapping while one worker allocates the plain in-process ones. -/
theorem runner_init_spec :
    (∀ nw : Int, runnerInit true nw true = Except.ok ⟨true, 1, none, none⟩) ∧
    (∀ nw : Int, runnerInit true nw false = Except.error InitError.mpiBindingMissing) ∧
    (∀ (nw : Int) (avail : Bool), 1 < nw →
      runnerInit false nw avail =
        Except.ok ⟨false, nw, some QueueKind.sharedQ, some MapKind.sharedM⟩) ∧
    (∀ avail : Bool, runnerInit false 1 avail =
      Except.ok ⟨false, 1, some QueueKind.plainQ, some MapKind.plainM⟩) := by
  refine ⟨fun nw => rfl, fun nw => rfl, fun nw avail h => ?_, fun avail => rfl⟩
  simp [runnerInit, h]

/-- Witness for C4: a concrete worker count above one allocates the shared
primitives. -/
theorem runner_init_spec_witness :
    (1 : Int) < 3 ∧
    runnerInit false 3 true =
      Except.ok ⟨false, 3, some QueueKind.sharedQ, some MapKind.sharedM⟩ :=
  ⟨by decide, runner_init_spec.2.2.1 3 true (by decide)⟩

/-- The externally visible calls the coordinating process makes while running
one builder: `connect(sources=...)`, putting a `(builder_index, item)` packet
on the local queue, an MPI point-to-point send (payload `none` is the
termination signal), an MPI blocking receive of a processed-item mapping,
`update_targets(results)`, and `finalize()`. -/
inductive Event where
  | connect (bid : Nat) (sources : Bool)
  | enqueue (bid : Nat) (item : Nat)
  | send (dest : Nat) (payload : Option (Nat × Nat))
  | recv (payload : RMap)
  | updateTargets (bid : Nat) (results : RMap)
  | finalize (bid : Nat)
  deriving DecidableEq

def Event.isConnect : Event → Bool
  | .connect _ _ => true
  | _ => false

def Event.isRecv : Event → Bool
  | .recv _ => true
  | _ => false

def Event.isKillSend : Event → Bool
  | .send _ none => true
  | _ => false

def Event.isUpdateTargets : Event → Bool
  | .updateTargets _ _ => true
  | _ => false

/-- The runner's per-instance state threaded through builder runs within one
`run()`: `self.processed_items` and `self.status`. Neither is ever reset. -/
structure RunnerState where
  processedItems : RMap
  status : List Bool
  deriving DecidableEq

/-- The 2-second timeout passed to `self._queue.get(timeout=2)`. -/
def workerTimeoutSeconds : Nat := 2

/-- `queue.get(timeout=...)` on the embedded queue: a nonempty queue yields
its front packet at once; on an exhausted queue the wait times out
(`queue.Empty`), returned as `none`. Real elapsed time is not modelled. -/
def queueGetTimeout (timeoutSeconds : Nat) (q : List (Nat × Nat)) :
    Option ((Nat × Nat) × List (Nat × Nat)) :=
  match q with
  | [] => none
  | p :: rest => some (p, rest)

/-- `Runner.worker` in the local backend, run to completion: pop packets
until the timed `get` raises `queue.Empty`, calling
`self.builders[builder_id].process_item(item)` on each and merging the
result into the accumulated results mapping via `dict.update`. `procs bid
item` is builder `bid`'s `process_item`. -/
def workerLoop (procs : Nat → Nat → RMap) : List (Nat × Nat) → RMap → RMap
  | [], acc => acc
  | p :: rest, acc => workerLoop procs rest (mupdate acc (procs p.1 p.2))

/-- `Runner._run_builder_in_multiproc` on the `num_workers = 1` path, with
every `process_item` succeeding: connect to sources, enqueue every item,
run the worker loop in-process (appending a success status), connect to
targets, call `update_targets(self.processed_items)`, and `finalize()` iff
every status recorded so far in this runner instance is success. -/
def runBuilderLocalSingle (procs : Nat → Nat → RMap) (b : Builder) (bid : Nat)
    (st : RunnerState) : RunnerState × List Event :=
  let pi2 := workerLoop procs (b.items.map (fun it => (bid, it))) st.processedItems
  let newStatus := st.status ++ [true]
  (⟨pi2, newStatus⟩,
    [Event.connect bid true]
      ++ b.items.map (fun it => Event.enqueue bid it)
      ++ [Event.connect bid false, Event.updateTargets bid pi2]
      ++ (if newStatus.all (fun s => s) then [Event.finalize bid] else []))

/-- `Runner._run_builder_in_multiproc` on the `num_workers > 1` path. The
worker processes run concurrently in the OS; their net effect on the shared
results mapping is the (scheduling-dependent) delta `workerMerge`, and their
exit codes give the success flags `exitOk`, appended to `self.status` in
join order. Then connect to targets, `update_targets(self.processed_items)`,
and `finalize()` iff every status recorded so far is success. -/
def runBuilderLocalMulti (b : Builder) (bid : Nat) (exitOk : List Bool)
    (workerMerge : RMap) (st : RunnerState) : RunnerState × List Event :=
  let pi2 := mupdate st.processedItems workerMerge
  let newStatus := st.status ++ exitOk
  (⟨pi2, newStatus⟩,
    [Event.connect bid true]
      ++ b.items.map (fun it => Event.enqueue bid it)
      ++ [Event.connect bid false, Event.updateTargets bid pi2]
      ++ (if newStatus.all (fun s => s) then [Event.finalize bid] else []))

/-- `next(worker_id)` of `cycle(range(1, size))`: the destination rank of the
`t`-th send (counting from 0) is `1 + t % (size - 1)`. -/
def roundRobinDest (size t : Nat) : Nat := 1 + t % (size - 1)

/-- `Runner._run_builder_in_mpi` on rank 0 with every receive succeeding:
connect to sources, send each of the `n` items round-robin to ranks
`1..size-1`, perform exactly `n` blocking receives (`recvd t` is the `t`-th
received mapping, merged in arrival order into a results dict local to this
run), append one success status per receive, continue the same round-robin
cycle for `size - 1` termination sends with payload `None`, then connect to
targets, `update_targets(results)`, and `finalize()` iff every status
recorded so far is success. `self.processed_items` is untouched. -/
def runBuilderMpiCoord (b : Builder) (bid : Nat) (size : Nat)
    (recvd : Nat → RMap) (st : RunnerState) : RunnerState × List Event :=
  let n := b.items.length
  let results := mergeAll [] ((List.range n).map recvd)
  let newStatus := st.status ++ (List.range n).map (fun _ => true)
  (⟨st.processedItems, newStatus⟩,
    [Event.connect bid true]
      ++ (b.items.enum.map (fun p => Event.send (roundRobinDest size p.1) (some (bid, p.2))))
      ++ (List.range n).map (fun t => Event.recv (recvd t))
      ++ (List.range (size - 1)).map (fun k => Event.send (roundRobinDest size (n + k)) none)
      ++ [Event.connect bid false, Event.updateTargets bid results]
      ++ (if newStatus.all (fun s => s) then [Event.finalize bid] else []))

/-- Claim C8 (local worker loop). The loop pops one `(builder_index, item)`
packet per iteration through the 2-second timed `get`; a successful pop
processes the item and merges the result into the accumulated mapping with
later bindings overwriting earlier ones on key collision; a timed-out pop
(exhausted queue) stops the loop — every packet value is processed, there is
no end-of-work sentinel. -/
theorem worker_loop_spec :
    workerTimeoutSeconds = 2 ∧
    (∀ (procs : Nat → Nat → RMap) (q : List (Nat × Nat)) (acc : RMap),
      workerLoop procs q acc =
        match queueGetTimeout workerTimeoutSeconds q with
        | none => acc
        | some (p, rest) => workerLoop procs rest (mupdate acc (procs p.1 p.2))) ∧
    (∀ (m d : RMap) (k : String),
      mlookup (mupdate m d) k =
        match mlookup d.reverse k with
        | some v => some v
        | none => mlookup m k) := by
  refine ⟨rfl, fun procs q acc => ?_, fun m d k => mlookup_mupdate m d k⟩
  cases q <;> rfl

/-- Witness for C8: the timed pop constant of the loop is 2 seconds. -/
theorem worker_loop_spec_witness : workerTimeoutSeconds = 2 :=
  worker_loop_spec.1

/-- No event of the list is a `connect` or an `update_targets` call. -/
def noConnectNoUpdate (l : List Event) : Prop :=
  ∀ e ∈ l, e.isConnect = false ∧ e.isUpdateTargets = false

/-- Claim C7 (connect twice, one update). In each backend, the trace of one
completed builder run starts with `connect(sources=true)` — before any item
is iterated — and contains exactly one later `connect(sources=false)`
immediately followed by the single `update_targets` call; no other connect
or update call occurs anywhere in the trace. -/
theorem connect_update_protocol :
    (∀ procs b bid st, ∃ mid fin m,
      (runBuilderLocalSingle procs b bid st).2 =
        Event.connect bid true :: (mid ++ Event.connect bid false ::
          Event.updateTargets bid m :: fin) ∧
      noConnectNoUpdate mid ∧ noConnectNoUpdate fin) ∧
    (∀ b bid exitOk wm st, ∃ mid fin m,
      (runBuilderLocalMulti b bid exitOk wm st).2 =
        Event.connect bid true :: (mid ++ Event.connect bid false ::
          Event.updateTargets bid m :: fin) ∧
      noConnectNoUpdate mid ∧ noConnectNoUpdate fin) ∧
    (∀ b bid size recvd st, ∃ mid fin m,
      (runBuilderMpiCoord b bid size recvd st).2 =
        Event.connect bid true :: (mid ++ Event.connect bid false ::
          Event.updateTargets bid m :: fin) ∧
      noConnectNoUpdate mid ∧ noConnectNoUpdate fin) := by
  refine ⟨fun procs b bid st => ?_, fun b bid exitOk wm st => ?_,
    fun b bid size recvd st => ?_⟩
  · refine ⟨b.items.map (fun it => Event.enqueue bid it),
      (if (st.status ++ [true]).all (fun s => s) then [Event.finalize bid] else []),
      workerLoop procs (b.items.map (fun it => (bid, it))) st.processedItems,
      ?_, ?_, ?_⟩
    · simp [runBuilderLocalSingle]
    · intro e he
      rcases List.mem_map.mp he with ⟨it, -, rfl⟩
      exact ⟨rfl, rfl⟩
    · intro e he
      split at he
      · rw [List.mem_singleton] at he
        subst he
        exact ⟨rfl, rfl⟩
      · exact absurd he (List.not_mem_nil e)
  · refine ⟨b.items.map (fun it => Event.enqueue bid it),
      (if (st.status ++ exitOk).all (fun s => s) then [Event.finalize bid] else []),
      mupdate st.processedItems wm, ?_, ?_, ?_⟩
    · simp [runBuilderLocalMulti]
    · intro e he
      rcases List.mem_map.mp he with ⟨it, -, rfl⟩
      exact ⟨rfl, rfl⟩
    · intro e he
      split at he
      · rw [List.mem_singleton] at he
        subst he
        exact ⟨rfl, rfl⟩
      · exact absurd he (List.not_mem_nil e)
  · refine ⟨(b.items.enum.map
        (fun p => Event.send (roundRobinDest size p.1) (some (bid, p.2))))
      ++ ((List.range b.items.length).map (fun t => Event.recv (recvd t)))
      ++ ((List.range (size - 1)).map
        (fun k => Event.send (roundRobinDest size (b.items.length + k)) none)),
      (if (st.status ++ (List.range b.items.length).map (fun _ => true)).all
          (fun s => s) then [Event.finalize bid] else []),
      mergeAll [] ((List.range b.items.length).map recvd), ?_, ?_, ?_⟩
    · simp [runBuilderMpiCoord]
    · intro e he
      rcases List.mem_append.mp he with h1 | h1
      · rcases List.mem_append.mp h1 with h2 | h2
        · rcases List.mem_map.mp h2 with ⟨p, -, rfl⟩
          exact ⟨rfl, rfl⟩
        · rcases List.mem_map.mp h2 with ⟨t, -, rfl⟩
          exact ⟨rfl, rfl⟩
      · rcases List.mem_map.mp h1 with ⟨t2, -, rfl⟩
        exact ⟨rfl, rfl⟩
    · intro e he
      split at he
      · rw [List.mem_singleton] at he
        subst he
        exact ⟨rfl, rfl⟩
      · exact absurd he (List.not_mem_nil e)

/-- Witness for C7 at the single-worker local backend on a demo builder. -/
theorem connect_update_protocol_witness :
    ∃ mid fin m,
      (runBuilderLocalSingle (fun b2 it => [("p", b2 + it)]) demoBuilderA 0
        ⟨[], []⟩).2 =
        Event.connect 0 true :: (mid ++ Event.connect 0 false ::
          Event.updateTargets 0 m :: fin) ∧
      noConnectNoUpdate mid ∧ noConnectNoUpdate fin :=
  connect_update_protocol.1 (fun b2 it => [("p", b2 + it)]) demoBuilderA 0 ⟨[], []⟩

/-- The gate `if all(self.status)` is false as soon as any recorded status is
a failure. -/
theorem all_eq_false_of_mem_false (l : List Bool) (h : false ∈ l) :
    l.all (fun s => s) = false := by
  rcases Bool.eq_false_or_eq_true (l.all (fun s => s)) with ht | hf
  · rw [List.all_eq_true] at ht
    have := ht false h
    simp at this
  · exact hf

/-- Claim C2, amended (finalize gate). In each backend, one builder run emits
`finalize()` exactly once when every status recorded in the runner instance
so far — the statuses of this run together with those carried over from
earlier builder runs — is success, and not at all otherwise; the status list
itself only ever grows. In the MPI backend a completed coordinator run
records one success per receive. -/
theorem finalize_gate_spec :
    (∀ b bid exitOk wm st,
      (runBuilderLocalMulti b bid exitOk wm st).1.status = st.status ++ exitOk ∧
      (runBuilderLocalMulti b bid exitOk wm st).2.count (Event.finalize bid) =
        (if (st.status ++ exitOk).all (fun s => s) then 1 else 0)) ∧
    (∀ procs b bid st,
      (runBuilderLocalSingle procs b bid st).1.status = st.status ++ [true] ∧
      (runBuilderLocalSingle procs b bid st).2.count (Event.finalize bid) =
        (if (st.status ++ [true]).all (fun s => s) then 1 else 0)) ∧
    (∀ b bid size recvd st,
      (runBuilderMpiCoord b bid size recvd st).1.status =
        st.status ++ (List.range b.items.length).map (fun _ => true) ∧
      (runBuilderMpiCoord b bid size recvd st).2.count (Event.finalize bid) =
        (if (st.status ++ (List.range b.items.length).map (fun _ => true)).all
          (fun s => s) then 1 else 0)) := by
  refine ⟨fun b bid exitOk wm st => ⟨rfl, ?_⟩, fun procs b bid st => ⟨rfl, ?_⟩,
    fun b bid size recvd st => ⟨rfl, ?_⟩⟩
  · have htr : (runBuilderLocalMulti b bid exitOk wm st).2 =
        [Event.connect bid true] ++ b.items.map (fun it => Event.enqueue bid it)
          ++ [Event.connect bid false,
              Event.updateTargets bid (mupdate st.processedItems wm)]
          ++ (if (st.status ++ exitOk).all (fun s => s) then [Event.finalize bid]
              else []) := rfl
    rw [htr]
    have h1 : List.count (Event.finalize bid) [Event.connect bid true] = 0 :=
      List.count_eq_zero.mpr (by simp)
    have h2 : List.count (Event.finalize bid)
        (b.items.map (fun it => Event.enqueue bid it)) = 0 :=
      List.count_eq_zero.mpr (by simp)
    have h3 : List.count (Event.finalize bid)
        [Event.connect bid false,
         Event.updateTargets bid (mupdate st.processedItems wm)] = 0 :=
      List.count_eq_zero.mpr (by simp)
    by_cases hg : ((st.status ++ exitOk).all (fun s => s)) = true
    · rw [if_pos hg, if_pos hg, List.count_append, List.count_append,
        List.count_append, h1, h2, h3]
      simp [List.count_cons]
    · rw [if_neg hg, if_neg hg, List.count_append, List.count_append,
        List.count_append, h1, h2, h3]
      simp
  · have htr : (runBuilderLocalSingle procs b bid st).2 =
        [Event.connect bid true] ++ b.items.map (fun it => Event.enqueue bid it)
          ++ [Event.connect bid false,
              Event.updateTargets bid
                (workerLoop procs (b.items.map (fun it => (bid, it)))
                  st.processedItems)]
          ++ (if (st.status ++ [true]).all (fun s => s) then [Event.finalize bid]
              else []) := rfl
    rw [htr]
    have h1 : List.count (Event.finalize bid) [Event.connect bid true] = 0 :=
      List.count_eq_zero.mpr (by simp)
    have h2 : List.count (Event.finalize bid)
        (b.items.map (fun it => Event.enqueue bid it)) = 0 :=
      List.count_eq_zero.mpr (by simp)
    have h3 : List.count (Event.finalize bid)
        [Event.connect bid false,
         Event.updateTargets bid
           (workerLoop procs (b.items.map (fun it => (bid, it)))
             st.processedItems)] = 0 :=
      List.count_eq_zero.mpr (by simp)
    by_cases hg : ((st.status ++ [true]).all (fun s => s)) = true
    · rw [if_pos hg, if_pos hg, List.count_append, List.count_append,
        List.count_append, h1, h2, h3]
      simp [List.count_cons]
    · rw [if_neg hg, if_neg hg, List.count_append, List.count_append,
        List.count_append, h1, h2, h3]
      simp
  · have htr : (runBuilderMpiCoord b bid size recvd st).2 =
        [Event.connect bid true]
          ++ (b.items.enum.map
              (fun p => Event.send (roundRobinDest size p.1) (some (bid, p.2))))
          ++ ((List.range b.items.length).map (fun t => Event.recv (recvd t)))
          ++ ((List.range (size - 1)).map
              (fun k => Event.send (roundRobinDest size (b.items.length + k)) none))
          ++ [Event.connect bid false,
              Event.updateTargets bid
                (mergeAll [] ((List.range b.items.length).map recvd))]
          ++ (if (st.status ++ (List.range b.items.length).map (fun _ => true)).all
                (fun s => s) then [Event.finalize bid] else []) := rfl
    rw [htr]
    have h1 : List.count (Event.finalize bid) [Event.connect bid true] = 0 :=
      List.count_eq_zero.mpr (by simp)
    have h2 : List.count (Event.finalize bid)
        (b.items.enum.map
          (fun p => Event.send (roundRobinDest size p.1) (some (bid, p.2)))) = 0 :=
      List.count_eq_zero.mpr (by simp)
    have h3 : List.count (Event.finalize bid)
        ((List.range b.items.length).map (fun t => Event.recv (recvd t))) = 0 :=
      List.count_eq_zero.mpr (by simp)
    have h4 : List.count (Event.finalize bid)
        ((List.range (size - 1)).map
          (fun k => Event.send (roundRobinDest size (b.items.length + k)) none)) = 0 :=
      List.count_eq_zero.mpr (by simp)
    have h5 : List.count (Event.finalize bid)
        [Event.connect bid false,
         Event.updateTargets bid
           (mergeAll [] ((List.range b.items.length).map recvd))] = 0 :=
      List.count_eq_zero.mpr (by simp)
    by_cases hg : ((st.status ++ (List.range b.items.length).map
        (fun _ => true)).all (fun s => s)) = true
    · rw [if_pos hg, if_pos hg, List.count_append, List.count_append,
        List.count_append, List.count_append, List.count_append, h1, h2, h3, h4, h5]
      simp [List.count_cons]
    · rw [if_neg hg, if_neg hg, List.count_append, List.count_append,
        List.count_append, List.count_append, List.count_append, h1, h2, h3, h4, h5]
      simp

/-- Witness for C2's amended theorem: with a clean slate and both workers
exiting zero, builder 0's run calls finalize exactly once. -/
theorem finalize_gate_spec_witness :
    (runBuilderLocalMulti demoBuilderA 0 [true, true] [] ⟨[], []⟩).2.count
      (Event.finalize 0) = 1 :=
  (finalize_gate_spec.1 demoBuilderA 0 [true, true] [] ⟨[], []⟩).2

/-- Claim C2 as stated is false on the code: builder 0's run records a worker
failure (exit codes 0 and 1), and although every worker of builder 1's
subsequent run succeeds, builder 1's `finalize()` is skipped, because
`all(self.status)` also evaluates the statuses recorded by builder 0's run.
-/
theorem finalize_gate_counterexample :
    ([true, true].all (fun s => s) = true) ∧
    Event.finalize 1 ∉
      (runBuilderLocalMulti demoBuilderA 1 [true, true] []
        (runBuilderLocalMulti demoBuilderB 0 [true, false] [] ⟨[], []⟩).1).2 := by
  decide

theorem workerLoop_preserves_keys (procs : Nat → Nat → RMap) :
    ∀ (q : List (Nat × Nat)) (acc : RMap) (k : String),
      (mlookup acc k).isSome → (mlookup (workerLoop procs q acc) k).isSome := by
  intro q
  induction q with
  | nil => intro acc k h; exact h
  | cons p rest ih =>
    intro acc k h
    exact ih _ k (mlookup_mupdate_isSome _ _ k h)

/-- Claim C10 (per-instance state accumulates across builder runs). In the
local backend, a builder run extends — never clears — the runner's
`processed_items` and `status`: the single `update_targets` call receives the
mapping obtained by merging this run's results into whatever earlier builder
runs left there (every key already present stays present), the status list
is the old one plus this run's entries, and the finalize gate evaluates the
whole list, so a failure recorded by an earlier builder suppresses this
builder's `finalize()` even when its own workers all succeed. -/
theorem runner_state_accumulates :
    (∀ procs b bid st,
      (runBuilderLocalSingle procs b bid st).1.status = st.status ++ [true] ∧
      Event.updateTargets bid (runBuilderLocalSingle procs b bid st).1.processedItems ∈
        (runBuilderLocalSingle procs b bid st).2 ∧
      (∀ k, (mlookup st.processedItems k).isSome →
        (mlookup (runBuilderLocalSingle procs b bid st).1.processedItems k).isSome) ∧
      (false ∈ st.status →
        Event.finalize bid ∉ (runBuilderLocalSingle procs b bid st).2)) ∧
    (∀ b bid exitOk wm st,
      (runBuilderLocalMulti b bid exitOk wm st).1.status = st.status ++ exitOk ∧
      Event.updateTargets bid (runBuilderLocalMulti b bid exitOk wm st).1.processedItems ∈
        (runBuilderLocalMulti b bid exitOk wm st).2 ∧
      (∀ k, (mlookup st.processedItems k).isSome →
        (mlookup (runBuilderLocalMulti b bid exitOk wm st).1.processedItems k).isSome) ∧
      (false ∈ st.status →
        Event.finalize bid ∉ (runBuilderLocalMulti b bid exitOk wm st).2)) := by
  constructor
  · intro procs b bid st
    refine ⟨rfl, ?_, ?_, ?_⟩
    · simp [runBuilderLocalSingle]
    · intro k h
      exact workerLoop_preserves_keys procs _ _ k h
    · intro hf hmem
      have hc : (st.status ++ [true]).all (fun s => s) = false :=
        all_eq_false_of_mem_false _ (List.mem_append_left _ hf)
      simp [runBuilderLocalSingle, hc] at hmem
  · intro b bid exitOk wm st
    refine ⟨rfl, ?_, ?_, ?_⟩
    · simp [runBuilderLocalMulti]
    · intro k h
      exact mlookup_mupdate_isSome _ _ k h
    · intro hf hmem
      have hc : (st.status ++ exitOk).all (fun s => s) = false :=
        all_eq_false_of_mem_false _ (List.mem_append_left _ hf)
      simp [runBuilderLocalMulti, hc] at hmem

/-- Witness for C10: with a failure already on the status list from an
earlier builder, the next builder's run does not finalize, and a previously
stored key survives the run. -/
theorem runner_state_accumulates_witness :
    (false ∈ ([true, false] : List Bool)) ∧
    ((mlookup ([("seed", 7)] : RMap) "seed").isSome) ∧
    (Event.finalize 1 ∉
      (runBuilderLocalSingle (fun b2 it => [("p", b2 + it)]) demoBuilderA 1
        ⟨[("seed", 7)], [true, false]⟩).2) ∧
    ((mlookup (runBuilderLocalSingle (fun b2 it => [("p", b2 + it)]) demoBuilderA 1
        ⟨[("seed", 7)], [true, false]⟩).1.processedItems "seed").isSome) :=
  ⟨by decide, by decide,
    (runner_state_accumulates.1 (fun b2 it => [("p", b2 + it)]) demoBuilderA 1
      ⟨[("seed", 7)], [true, false]⟩).2.2.2 (by decide),
    (runner_state_accumulates.1 (fun b2 it => [("p", b2 + it)]) demoBuilderA 1
      ⟨[("seed", 7)], [true, false]⟩).2.2.1 "seed" (by decide)⟩

theorem count_mod_range (m n w2 : Nat) (hm : 0 < m) (hw : w2 < m) :
    (List.range m).countP (fun k => (n + k) % m == w2) = 1 := by
  have hinj : ∀ x ∈ List.range m, ∀ y ∈ List.range m,
      (n + x) % m = (n + y) % m → x = y := by
    intro x hx y hy hxy
    rw [List.mem_range] at hx hy
    have hmm : x % m = y % m := Nat.ModEq.add_left_cancel' n hxy
    rwa [Nat.mod_eq_of_lt hx, Nat.mod_eq_of_lt hy] at hmm
  have hnd : ((List.range m).map (fun k => (n + k) % m)).Nodup :=
    List.Nodup.map_on hinj (List.nodup_range m)
  have hkey : (n + (m + w2 - n % m) % m) % m = w2 := by
    have h1 : n % m < m := Nat.mod_lt _ hm
    have hmod : n + (m + w2 - n % m) % m ≡ w2 [MOD m] := by
      calc n + (m + w2 - n % m) % m
          ≡ n + (m + w2 - n % m) [MOD m] :=
            Nat.ModEq.add_left n (Nat.mod_modEq _ m)
        _ ≡ n % m + (m + w2 - n % m) [MOD m] :=
            Nat.ModEq.add_right _ ((Nat.mod_modEq n m).symm)
        _ = m + w2 := by omega
        _ ≡ w2 [MOD m] := Nat.add_mod_left m w2
    have h7 : (n + (m + w2 - n % m) % m) % m = w2 % m := hmod
    rwa [Nat.mod_eq_of_lt hw] at h7
  have hmem : w2 ∈ (List.range m).map (fun k => (n + k) % m) := by
    rw [List.mem_map]
    exact ⟨(m + w2 - n % m) % m, List.mem_range.mpr (Nat.mod_lt _ hm), hkey⟩
  have hcount := List.count_eq_one_of_mem hnd hmem
  have heq : (List.range m).countP (fun k => (n + k) % m == w2) =
      List.count w2 ((List.range m).map (fun k => (n + k) % m)) := by
    rw [List.count, List.countP_map]
    rfl
  rw [heq, hcount]

/-- Sending `size - 1` consecutive values of the round-robin cycle over ranks
`1..size-1` reaches every worker rank exactly once, wherever the cycle
stands after distributing `n` items. -/
theorem kill_count (size n w : Nat) (hsize : 2 ≤ size) (hw1 : 1 ≤ w)
    (hw2 : w < size) :
    ((List.range (size - 1)).map
      (fun k => Event.send (roundRobinDest size (n + k)) none)).count
        (Event.send w none) = 1 := by
  have h1 : ((List.range (size - 1)).map
      (fun k => Event.send (roundRobinDest size (n + k)) none)).count
        (Event.send w none)
      = (List.range (size - 1)).countP
          (fun k => Event.send (roundRobinDest size (n + k)) none ==
            Event.send w none) := by
    rw [List.count, List.countP_map]
    rfl
  rw [h1]
  have hiff : ∀ k ∈ List.range (size - 1),
      (Event.send (roundRobinDest size (n + k)) none == Event.send w none) = true ↔
      ((n + k) % (size - 1) == w - 1) = true := by
    intro k hk
    simp only [beq_iff_eq, Event.send.injEq, roundRobinDest]
    constructor
    · rintro ⟨hd, -⟩
      omega
    · intro hd
      exact ⟨by omega, trivial⟩
  rw [List.countP_congr hiff]
  exact count_mod_range (size - 1) n (w - 1) (by omega) (by omega)

/-- Claim C3 (MPI coordinator protocol). With `size ≥ 2` ranks, the trace of
one coordinator run contains exactly `n` blocking receives (`n` the number of
items the builder yields); the results passed to `update_targets` are the
received mappings merged in arrival order, a later received binding for a key
overriding any earlier one; and the run contains exactly `size - 1`
termination sends, reaching every worker rank `1 ≤ w < size` exactly once
even though they continue the round-robin cycle where item distribution left
it. -/
theorem mpi_coordinator_protocol (b : Builder) (bid size : Nat)
    (recvd : Nat → RMap) (st : RunnerState) (hsize : 2 ≤ size) :
    (runBuilderMpiCoord b bid size recvd st).2.countP Event.isRecv =
      b.items.length ∧
    (runBuilderMpiCoord b bid size recvd st).2.countP Event.isKillSend =
      size - 1 ∧
    (∀ w, 1 ≤ w → w < size →
      (runBuilderMpiCoord b bid size recvd st).2.count (Event.send w none) = 1) ∧
    Event.updateTargets bid (mergeAll [] ((List.range b.items.length).map recvd)) ∈
      (runBuilderMpiCoord b bid size recvd st).2 ∧
    (∀ k, mlookup (mergeAll [] ((List.range b.items.length).map recvd)) k =
      match mlookupMaps ((List.range b.items.length).map recvd) k with
      | some v => some v
      | none => none) ∧
    (∀ (ds : List RMap) (d : RMap) (k : String),
      mlookupMaps (ds ++ [d]) k =
        match mlookup d.reverse k with
        | some v => some v
        | none => mlookupMaps ds k) := by
  have htr : (runBuilderMpiCoord b bid size recvd st).2 =
      [Event.connect bid true]
        ++ (b.items.enum.map
            (fun p => Event.send (roundRobinDest size p.1) (some (bid, p.2))))
        ++ ((List.range b.items.length).map (fun t => Event.recv (recvd t)))
        ++ ((List.range (size - 1)).map
            (fun k => Event.send (roundRobinDest size (b.items.length + k)) none))
        ++ [Event.connect bid false,
            Event.updateTargets bid
              (mergeAll [] ((List.range b.items.length).map recvd))]
        ++ (if (st.status ++ (List.range b.items.length).map (fun _ => true)).all
              (fun s => s) then [Event.finalize bid] else []) := rfl
  have r1 : List.countP Event.isRecv [Event.connect bid true] = 0 := by
    rw [List.countP_eq_zero]
    intro e he
    rw [List.mem_singleton] at he
    subst he
    simp [Event.isRecv]
  have r2 : List.countP Event.isRecv
      (b.items.enum.map
        (fun p => Event.send (roundRobinDest size p.1) (some (bid, p.2)))) = 0 := by
    rw [List.countP_eq_zero]
    intro e he
    rcases List.mem_map.mp he with ⟨p, -, rfl⟩
    simp [Event.isRecv]
  have r3 : List.countP Event.isRecv
      ((List.range b.items.length).map (fun t => Event.recv (recvd t))) =
      b.items.length := by
    have : List.countP Event.isRecv
        ((List.range b.items.length).map (fun t => Event.recv (recvd t))) =
        ((List.range b.items.length).map (fun t => Event.recv (recvd t))).length := by
      rw [List.countP_eq_length]
      intro e he
      rcases List.mem_map.mp he with ⟨t, -, rfl⟩
      rfl
    rw [this, List.length_map, List.length_range]
  have r4 : List.countP Event.isRecv
      ((List.range (size - 1)).map
        (fun k => Event.send (roundRobinDest size (b.items.length + k)) none)) = 0 := by
    rw [List.countP_eq_zero]
    intro e he
    rcases List.mem_map.mp he with ⟨t2, -, rfl⟩
    simp [Event.isRecv]
  have r5 : List.countP Event.isRecv
      [Event.connect bid false,
       Event.updateTargets bid
         (mergeAll [] ((List.range b.items.length).map recvd))] = 0 := by
    rw [List.countP_eq_zero]
    intro e he
    rcases List.mem_cons.mp he with rfl | he2
    · simp [Event.isRecv]
    · rw [List.mem_singleton] at he2
      subst he2
      simp [Event.isRecv]
  have r6 : List.countP Event.isRecv
      (if (st.status ++ (List.range b.items.length).map (fun _ => true)).all
        (fun s => s) then [Event.finalize bid] else []) = 0 := by
    split
    · rw [List.countP_eq_zero]
      intro e he
      rw [List.mem_singleton] at he
      subst he
      simp [Event.isRecv]
    · rfl
  have q1 : List.countP Event.isKillSend [Event.connect bid true] = 0 := by
    rw [List.countP_eq_zero]
    intro e he
    rw [List.mem_singleton] at he
    subst he
    simp [Event.isKillSend]
  have q2 : List.countP Event.isKillSend
      (b.items.enum.map
        (fun p => Event.send (roundRobinDest size p.1) (some (bid, p.2)))) = 0 := by
    rw [List.countP_eq_zero]
    intro e he
    rcases List.mem_map.mp he with ⟨p, -, rfl⟩
    simp [Event.isKillSend]
  have q3 : List.countP Event.isKillSend
      ((List.range b.items.length).map (fun t => Event.recv (recvd t))) = 0 := by
    rw [List.countP_eq_zero]
    intro e he
    rcases List.mem_map.mp he with ⟨t, -, rfl⟩
    simp [Event.isKillSend]
  have q4 : List.countP Event.isKillSend
      ((List.range (size - 1)).map
        (fun k => Event.send (roundRobinDest size (b.items.length + k)) none)) =
      size - 1 := by
    have : List.countP Event.isKillSend
        ((List.range (size - 1)).map
          (fun k => Event.send (roundRobinDest size (b.items.length + k)) none)) =
        ((List.range (size - 1)).map
          (fun k => Event.send (roundRobinDest size (b.items.length + k)) none)).length := by
      rw [List.countP_eq_length]
      intro e he
      rcases List.mem_map.mp he with ⟨t2, -, rfl⟩
      rfl
    rw [this, List.length_map, List.length_range]
  have q5 : List.countP Event.isKillSend
      [Event.connect bid false,
       Event.updateTargets bid
         (mergeAll [] ((List.range b.items.length).map recvd))] = 0 := by
    rw [List.countP_eq_zero]
    intro e he
    rcases List.mem_cons.mp he with rfl | he2
    · simp [Event.isKillSend]
    · rw [List.mem_singleton] at he2
      subst he2
      simp [Event.isKillSend]
  have q6 : List.countP Event.isKillSend
      (if (st.status ++ (List.range b.items.length).map (fun _ => true)).all
        (fun s => s) then [Event.finalize bid] else []) = 0 := by
    split
    · rw [List.countP_eq_zero]
      intro e he
      rw [List.mem_singleton] at he
      subst he
      simp [Event.isKillSend]
    · rfl
  refine ⟨?_, ?_, ?_, ?_, ?_, ?_⟩
  · rw [htr, List.countP_append, List.countP_append, List.countP_append,
      List.countP_append, List.countP_append, r1, r2, r3, r4, r5, r6]
    omega
  · rw [htr, List.countP_append, List.countP_append, List.countP_append,
      List.countP_append, List.countP_append, q1, q2, q3, q4, q5, q6]
    omega
  · intro w hw1 hw2
    rw [htr, List.count_append, List.count_append, List.count_append,
      List.count_append, List.count_append]
    have k1 : List.count (Event.send w none) [Event.connect bid true] = 0 :=
      List.count_eq_zero.mpr (by simp)
    have k2 : List.count (Event.send w none)
        (b.items.enum.map
          (fun p => Event.send (roundRobinDest size p.1) (some (bid, p.2)))) = 0 :=
      List.count_eq_zero.mpr (by simp)
    have k3 : List.count (Event.send w none)
        ((List.range b.items.length).map (fun t => Event.recv (recvd t))) = 0 :=
      List.count_eq_zero.mpr (by simp)
    have k5 : List.count (Event.send w none)
        [Event.connect bid false,
         Event.updateTargets bid
           (mergeAll [] ((List.range b.items.length).map recvd))] = 0 :=
      List.count_eq_zero.mpr (by simp)
    have k6 : List.count (Event.send w none)
        (if (st.status ++ (List.range b.items.length).map (fun _ => true)).all
          (fun s => s) then [Event.finalize bid] else []) = 0 := by
      split
      · exact List.count_eq_zero.mpr (by simp)
      · exact List.count_eq_zero.mpr (by simp)
    rw [k1, k2, k3, k5, k6, kill_count size b.items.length w hsize hw1 hw2]
  · rw [htr]
    simp
  · intro k
    rw [mlookup_mergeAll]
    cases hx : mlookupMaps ((List.range b.items.length).map recvd) k <;>
      simp [mlookup_nil]
  · intro ds d k
    exact mlookupMaps_append_single ds d k

/-- Witness for C3: three ranks, two items, concrete received mappings. -/
theorem mpi_coordinator_protocol_witness :
    2 ≤ 3 ∧
    (runBuilderMpiCoord demoBuilderA 0 3 (fun t => [("k", t)]) ⟨[], []⟩).2.countP
      Event.isRecv = 2 ∧
    (runBuilderMpiCoord demoBuilderA 0 3 (fun t => [("k", t)]) ⟨[], []⟩).2.countP
      Event.isKillSend = 2 ∧
    (runBuilderMpiCoord demoBuilderA 0 3 (fun t => [("k", t)]) ⟨[], []⟩).2.count
      (Event.send 1 none) = 1 :=
  ⟨by decide,
    (mpi_coordinator_protocol demoBuilderA 0 3 (fun t => [("k", t)]) ⟨[], []⟩
      (by decide)).1,
    (mpi_coordinator_protocol demoBuilderA 0 3 (fun t => [("k", t)]) ⟨[], []⟩
      (by decide)).2.1,
    (mpi_coordinator_protocol demoBuilderA 0 3 (fun t => [("k", t)]) ⟨[], []⟩
      (by decide)).2.2.1 1 (by decide) (by decide)⟩

/-- Modelled from the spec: the Delta rule's mode. The Delta rule engine's
source (maggma/lava/diff.py) is not in the snapshot, only its tests; the
spec's section 4.3 gives the parsed fields, with sign-crossing mode arising
from the spec string with no threshold literal. -/
inductive DeltaMode where
  | signCrossing
  | value
  deriving DecidableEq

/-- Modelled from the spec: the immutable parsed tolerance rule of section
4.3 — mode, optional plus and minus thresholds, inclusive flag (trailing
`=`), percentage flag (trailing `%`). Scalars are rationals. -/
structure Delta where
  mode : DeltaMode
  plusThreshold : Option Rat
  minusThreshold : Option Rat
  inclusive : Bool
  percentage : Bool

/-- Modelled from the spec: `Delta.cmp(old, new)`, the evaluation steps 1-5
of section 4.3. Sign-crossing mode is true exactly when one endpoint is
strictly negative and the other strictly positive, ignoring thresholds; in
value mode a zero difference is never a change, a missing threshold on the
relevant side returns false, percentage mode with a zero old value returns
false, and otherwise the (percentage) magnitude is compared strictly, or
inclusively with the `=` flag. -/
def Delta.cmp (d : Delta) (oldV newV : Rat) : Bool :=
  match d.mode with
  | DeltaMode.signCrossing =>
    decide (oldV < 0 ∧ 0 < newV ∨ newV < 0 ∧ 0 < oldV)
  | DeltaMode.value =>
    let diff := newV - oldV
    if diff = 0 then false
    else if 0 < diff then
      match d.plusThreshold with
      | none => false
      | some t =>
        if d.percentage then
          if oldV = 0 then false
          else if d.inclusive then decide (t ≤ |100 * diff / oldV|)
          else decide (t < |100 * diff / oldV|)
        else if d.inclusive then decide (t ≤ diff)
        else decide (t < diff)
    else
      match d.minusThreshold with
      | none => false
      | some t =>
        if d.percentage then
          if oldV = 0 then false
          else if d.inclusive then decide (t ≤ |100 * diff / oldV|)
          else decide (t < |100 * diff / oldV|)
        else if d.inclusive then decide (t ≤ |diff|)
        else decide (t < |diff|)

/-- Modelled from the spec: the rule parsed from the spec string made of the
symmetric prefix with no threshold literal — sign-crossing mode, no
thresholds, strict, absolute. -/
def deltaSignCrossing : Delta :=
  ⟨DeltaMode.signCrossing, none, none, false, false⟩

/-- Claim C9 (sign-crossing rule). For the rule parsed from the
plus-minus spec string, `cmp(old, new)` is true exactly when one of the two
values is strictly negative and the other strictly positive; a zero endpoint
never counts, the threshold and flag fields are ignored in this mode, and
the documented truth table holds: `cmp(0,1)` and `cmp(-1,0)` are false,
`cmp(-1,1)` is true. -/
theorem delta_sign_crossing_spec :
    (∀ oldV newV : Rat, deltaSignCrossing.cmp oldV newV = true ↔
      (oldV < 0 ∧ 0 < newV ∨ newV < 0 ∧ 0 < oldV)) ∧
    (∀ (pt mt : Option Rat) (inc pct : Bool) (oldV newV : Rat),
      (Delta.mk DeltaMode.signCrossing pt mt inc pct).cmp oldV newV =
        deltaSignCrossing.cmp oldV newV) ∧
    deltaSignCrossing.cmp 0 1 = false ∧
    deltaSignCrossing.cmp (-1) 0 = false ∧
    deltaSignCrossing.cmp (-1) 1 = true := by
  refine ⟨fun oldV newV => ?_, fun pt mt inc pct oldV newV => rfl, ?_, ?_, ?_⟩
  · simp [Delta.cmp, deltaSignCrossing]
  · decide
  · decide
  · decide

/-- Witness for C9: the truth-table corner of the sign-crossing rule. -/
theorem delta_sign_crossing_spec_witness :
    deltaSignCrossing.cmp (-1) 1 = true :=
  delta_sign_crossing_spec.2.2.2.2
